import Mathlib

/-!
# RustBot — verification of core behaviours

A shallow embedding of the pure/algorithmic core of the RustBot agent
runtime, together with theorems about the embedded operations.

Texts are modelled as `List Char` (their Unicode scalar values); Rust's
byte-oriented operations are modelled through `Char.utf8Size`.  The SQLite
database is modelled as explicit record states holding lists of rows, and
each SQL statement of the source is translated to an explicit list
transformation.  Interactions with the operating system (path
canonicalization, existence checks) and with network services (embedding
vectors, FTS match results) are abstracted as parameters.
-/

namespace RustBot

/-! ## Message chunking (src/platform/telegram.rs `split_message`,
src/agent.rs `split_response_chunks`)

`split_message` walks byte positions of a UTF-8 string: each loop
iteration slices from `start` to `min (start + max_len) len`, walks back
to a char boundary, then back to the last newline (else last space) in the
window, else keeps the raw cut.  We model the text as its list of chars;
a byte position that is a char boundary corresponds to a prefix of the
char list, and the walk-back to the largest boundary `≤ start + max_len`
corresponds to the longest prefix of the remaining text whose UTF-8 byte
length is at most `max_len`.

The Rust loop is not structurally terminating: an iteration whose
`actual_end` equals `start` pushes an empty chunk and repeats the same
state forever.  We therefore run the loop on fuel `length + 1`:
a terminating run consumes at least one char per iteration, so the fuel
is exhausted exactly when the Rust loop diverges, and the run is
represented by `none` in that case. -/

/-- UTF-8 byte length of a text (Rust `str::len`). -/
def byteLen (s : List Char) : Nat := (s.map Char.utf8Size).sum

/-- Longest prefix of `l` whose UTF-8 byte length is at most `w`.  This is
the char-list reading of `split_message`'s boundary walk-back: starting
from byte offset `w`, decrement while not `is_char_boundary`. -/
def takeBytes (w : Nat) : List Char → List Char
  | [] => []
  | c :: cs => if c.utf8Size ≤ w then c :: takeBytes (w - c.utf8Size) cs else []

/-- Index of the last occurrence of `c` (Rust `str::rfind` with a char
pattern; the source only searches for the one-byte chars lf and space, so
the byte index `pos` with `actual_end = start + pos + 1` corresponds to
keeping the prefix of `j + 1` chars where `j` is the char index). -/
def lastIdxOf (c : Char) : List Char → Option Nat
  | [] => none
  | a :: as =>
    match lastIdxOf c as with
    | some j => some (j + 1)
    | none => if a = c then some 0 else none

/-- Number of chars consumed by one iteration of the `split_message` loop
on the remaining text `rem`: the whole rest if it fits in `w` bytes
(`end == text.len()` branch), otherwise up to the last newline of the
window, else the last space, else the raw boundary cut. -/
def splitChunkLen (w : Nat) (rem : List Char) : Nat :=
  if byteLen rem ≤ w then rem.length
  else
    let p := takeBytes w rem
    match lastIdxOf '\n' p with
    | some j => j + 1
    | none =>
      match lastIdxOf ' ' p with
      | some j => j + 1
      | none => p.length

/-- Fuel-indexed run of the `split_message` loop; `none` models a run that
exhausts its fuel, which for fuel `length + 1` happens exactly when some
iteration consumes no chars — the Rust loop then repeats that state
forever. -/
def splitMessageGo (w : Nat) : Nat → List Char → Option (List (List Char))
  | 0, _ => none
  | fuel + 1, rem =>
    if rem.isEmpty then some []
    else
      let n := splitChunkLen w rem
      match splitMessageGo w fuel (rem.drop n) with
      | some rest => some (rem.take n :: rest)
      | none => none

/-- `split_message` from src/platform/telegram.rs: returns the whole text
as a single chunk when it fits in `maxLen` bytes, otherwise runs the
chunking loop. -/
def split_message (s : List Char) (maxLen : Nat) : Option (List (List Char)) :=
  if byteLen s ≤ maxLen then some [s]
  else splitMessageGo maxLen (s.length + 1) s

/-- Fuel-indexed run of the `split_response_chunks` loop from
src/agent.rs: each iteration takes `min maxLen remaining` chars (the Rust
code collects `text.chars()` and slices the char vector). -/
def splitRespGo (w : Nat) : Nat → List Char → Option (List (List Char))
  | 0, _ => none
  | fuel + 1, rem =>
    if rem.isEmpty then some []
    else
      match splitRespGo w fuel (rem.drop w) with
      | some rest => some (rem.take w :: rest)
      | none => none

/-- `split_response_chunks` from src/agent.rs: empty input gives no
chunks, otherwise the char-window loop runs. -/
def split_response_chunks (s : List Char) (maxLen : Nat) : Option (List (List Char)) :=
  if s.isEmpty then some []
  else splitRespGo maxLen (s.length + 1) s

/-! ## Skill-authoring validators (src/agent.rs `validate_skill_name`,
`validate_skill_path`) -/

/-- The character class checked by `validate_skill_name`:
`c.is_ascii_lowercase() || c.is_ascii_digit() || c == '-'`. -/
def skillNameCharOk (c : Char) : Bool :=
  (0x61 ≤ c.toNat && c.toNat ≤ 0x7A) || (0x30 ≤ c.toNat && c.toNat ≤ 0x39) || c = '-'

/-- `validate_skill_name` from src/agent.rs.  Note the length guard is on
`name.len()`, which counts UTF-8 bytes. -/
def validate_skill_name (name : List Char) : Except String Unit :=
  if name.isEmpty then .error "Skill name must not be empty"
  else if 64 < byteLen name then .error "Skill name too long"
  else if !(name.all skillNameCharOk) then
    .error "Skill name must contain only lowercase letters, numbers, and hyphens"
  else .ok ()

/-- Spec-side restatement of the skill-name character class
`[a-z0-9-]`: a lowercase ASCII letter, an ASCII digit, or a hyphen.
To be compared with `skillNameCharOk` above. -/
def specNameChar (c : Char) : Prop :=
  ('a' ≤ c ∧ c ≤ 'z') ∨ ('0' ≤ c ∧ c ≤ '9') ∨ c = '-'

instance : DecidablePred specNameChar := fun c => by
  unfold specNameChar
  infer_instance

/-- Rust `str::split('/')`: the list of segments between slashes,
including empty segments. -/
def splitOnSlash : List Char → List (List Char)
  | [] => [[]]
  | c :: cs =>
    match splitOnSlash cs with
    | [] => [[]]
    | s :: rest => if c = '/' then [] :: s :: rest else (c :: s) :: rest

/-- `validate_skill_path` from src/agent.rs: rejects the empty path, a
path starting with a slash, and a path one of whose slash-separated
segments is `..`. -/
def validate_skill_path (path : List Char) : Except String Unit :=
  if path.isEmpty then .error "Relative path must not be empty"
  else if path.head? = some '/' then .error "Relative path must not be absolute"
  else if (splitOnSlash path).any (fun seg => seg == ['.', '.']) then
    .error "Path traversal is not allowed"
  else .ok ()

/-! ## Sandbox path validation (src/tools.rs `validate_sandbox_path`)

Paths are modelled as Rust sees them after `components()` normalisation:
an absolute flag plus a list of components, where a component is an
ordinary name or the literal `..`.  The operating-system facts —
which paths exist and what `canonicalize` returns (resolving symlinks and
`..` segments) — are abstracted as a `SandboxFs` parameter, so the
theorems hold for every filesystem, symlinks included. -/

structure RPath where
  absolute : Bool
  comps : List String
deriving DecidableEq

/-- Rust `Path::join`: an absolute right-hand side replaces the base. -/
def RPath.join (base p : RPath) : RPath :=
  if p.absolute then p else ⟨base.absolute, base.comps ++ p.comps⟩

/-- Rust `Path::parent`: drops the last component; `none` for a root or
empty path. -/
def RPath.parent (p : RPath) : Option RPath :=
  match p.comps with
  | [] => none
  | _ => some ⟨p.absolute, p.comps.dropLast⟩

/-- Rust `Path::file_name`: the last component, unless the path ends in
`..` (then `None`). -/
def RPath.fileName (p : RPath) : Option String :=
  match p.comps.getLast? with
  | none => none
  | some c => if c = ".." then none else some c

/-- Rust `Path::starts_with`: component-wise prefix test. -/
def RPath.startsWith (p base : RPath) : Bool :=
  p.absolute == base.absolute && base.comps.isPrefixOf p.comps

/-- The filesystem facts `validate_sandbox_path` consults: existence and
canonicalization (which may fail, e.g. for a nonexistent path). -/
structure SandboxFs where
  pathExists : RPath → Bool
  canonicalize : RPath → Option RPath

/-- The candidate path computed by `validate_sandbox_path` before its
prefix check: resolve a relative request against the sandbox dir, then
canonicalize; for a nonexistent target canonicalize the parent and
re-append the requested filename. -/
def sandboxCheckPath (fs : SandboxFs) (sandboxDir requested : RPath) :
    Except String RPath :=
  let requestedPath :=
    if requested.absolute then requested else sandboxDir.join requested
  if fs.pathExists requestedPath then
    match fs.canonicalize requestedPath with
    | some c => .ok c
    | none => .error "Failed to canonicalize path"
  else
    match requestedPath.parent with
    | none => .error "Path has no parent directory"
    | some par =>
      match fs.canonicalize par with
      | none => .error "Parent directory not found"
      | some parCanon =>
        match requestedPath.fileName with
        | none => .error "Path has no filename"
        | some name => .ok ⟨parCanon.absolute, parCanon.comps ++ [name]⟩

/-- `validate_sandbox_path` from src/tools.rs: canonicalize the sandbox
dir, compute the candidate path, and reject it unless it starts with the
canonical sandbox root. -/
def validate_sandbox_path (fs : SandboxFs) (sandboxDir requested : RPath) :
    Except String RPath :=
  match fs.canonicalize sandboxDir with
  | none => .error "Sandbox directory not found"
  | some sandboxCanonical =>
    match sandboxCheckPath fs sandboxDir requested with
    | .error e => .error e
    | .ok checkPath =>
      if checkPath.startsWith sandboxCanonical then .ok checkPath
      else .error "Access denied: path is outside the sandbox directory"

/-! ## Knowledge store (src/memory/knowledge.rs `remember`, `recall`;
schema src/memory/mod.rs)

The `knowledge` table has a unique index on `(category, key)`
(`idx_knowledge_key`), and the `knowledge_embeddings` virtual table is
keyed by the base table's rowid.  Timestamps are abstract `Nat` instants;
embedding vectors are opaque `List Rat`. -/

structure KRow where
  rowid : Nat
  id : String
  category : String
  key : String
  value : String
  source : Option String
  created_at : Nat
  updated_at : Nat
deriving DecidableEq

structure KState where
  rows : List KRow
  embeds : List (Nat × List Rat)
  nextRowid : Nat
deriving DecidableEq

/-- The `WHERE category = ?1 AND key = ?2` predicate. -/
def kMatch (c k : String) (r : KRow) : Bool := r.category == c && r.key == k

/-- The `ON CONFLICT(category, key) DO UPDATE` action: new value, source
and `updated_at`; `id`, `category`, `key`, `created_at` and the rowid are
untouched. -/
def kUpdate (now : Nat) (v : String) (src : Option String) (r : KRow) : KRow :=
  { r with value := v, source := src, updated_at := now }

/-- `remember` from src/memory/knowledge.rs, run at instant `now` with
freshly generated UUID `newId` and embedding result `emb` (`none` models
an unconfigured or failing embedder):
1. `SELECT rowid FROM knowledge WHERE category AND key` (old row, if any);
2. `DELETE FROM knowledge_embeddings WHERE rowid = old`;
3. the upsert (`INSERT … ON CONFLICT(category, key) DO UPDATE`);
4. `SELECT rowid` again (always succeeds after the upsert);
5. `INSERT INTO knowledge_embeddings` when an embedding is available. -/
def remember (now : Nat) (newId : String) (emb : Option (List Rat))
    (c k v : String) (src : Option String) (st : KState) : KState :=
  let oldRowid := (st.rows.find? (kMatch c k)).map (·.rowid)
  let embeds1 :=
    match oldRowid with
    | some rid => st.embeds.filter (fun pr => pr.1 != rid)
    | none => st.embeds
  let rows2 :=
    if st.rows.any (kMatch c k) then
      st.rows.map (fun r => if kMatch c k r then kUpdate now v src r else r)
    else
      st.rows ++ [⟨st.nextRowid, newId, c, k, v, src, now, now⟩]
  let nextRowid2 := if st.rows.any (kMatch c k) then st.nextRowid else st.nextRowid + 1
  let rid := (((rows2.find? (kMatch c k)).map (·.rowid)).getD 0)
  let embeds2 :=
    match emb with
    | some e => embeds1 ++ [(rid, e)]
    | none => embeds1
  ⟨rows2, embeds2, nextRowid2⟩

/-- The function `recall` from src/memory/knowledge.rs: exact lookup of
the value (`recall` is a reserved word here, hence the longer name). -/
def recallKnowledge (st : KState) (c k : String) : Option String :=
  (st.rows.find? (kMatch c k)).map (·.value)

/-! ## Hybrid search (src/memory/knowledge.rs `search_knowledge`,
src/memory/conversations.rs `search_messages_with_embedding`)

Both functions run the same SQL shape over their base table, so we embed
it once, generically in the row payload.  The database-side inputs are:

* `vecRows`  — the `(rowid, distance)` pairs produced by the vec0 virtual
  table for the query embedding (`embedding MATCH ?1`), abstract;
* `ftsRows` — the `(rowid, rank)` pairs produced by the FTS5 virtual
  table for the query text, given by an abstract matcher `sem` for
  nonempty patterns.  The FTS5 query parser rejects the empty pattern
  with a syntax error, which makes the whole prepared statement fail;
  `ftsMatchExec` models exactly that one fact about the MATCH operator.

SQL `ORDER BY` is modelled by a merge sort (deterministic on ties, which
SQLite leaves unspecified); `row_number() OVER (ORDER BY …)` ranks the
sorted rows 1-based, and SQLite emits window rows in the window order, so
`LIMIT` keeps the best-ranked ones.  SQL `REAL`s are modelled as `Rat`. -/

structure SRow (α : Type) where
  rowid : Nat
  payload : α
deriving DecidableEq

/-- Ascending comparison on the second (distance / rank) column. -/
def sndLe (a b : Nat × Rat) : Bool := a.2 ≤ b.2

/-- 1-based rank of a rowid in a ranked list (the `LEFT JOIN … ON rowid`
against a CTE carrying `row_number()`). -/
def rankOf (l : List (Nat × Rat)) (rid : Nat) : Option Nat :=
  (l.findIdx? (fun pr => pr.1 == rid)).map (· + 1)

/-- The `vec_matches` CTE: top `k` rows by ascending distance. -/
def vecTop (vecRows : List (Nat × Rat)) (k : Nat) : List (Nat × Rat) :=
  (vecRows.mergeSort sndLe).take k

/-- The `fts_matches` CTE: top `k` rows by the FTS rank column. -/
def ftsTop (ftsRows : List (Nat × Rat)) (k : Nat) : List (Nat × Rat) :=
  (ftsRows.mergeSort sndLe).take k

/-- The `combined_rank` expression:
`coalesce(1.0/(60 + fts.rank_number), 0.0) * 0.5 +
 coalesce(1.0/(60 + vec.rank_number), 0.0) * 0.5`. -/
def combinedRank (vecM ftsM : List (Nat × Rat)) (rid : Nat) : Rat :=
  (match rankOf ftsM rid with
   | some r => 1 / (60 + (r : Rat))
   | none => 0) * (1 / 2)
  + (match rankOf vecM rid with
     | some r => 1 / (60 + (r : Rat))
     | none => 0) * (1 / 2)

/-- The `ORDER BY combined_rank DESC` comparison. -/
def rrfLe {α : Type} (vecM ftsM : List (Nat × Rat)) (a b : SRow α) : Bool :=
  combinedRank vecM ftsM b.rowid ≤ combinedRank vecM ftsM a.rowid

/-- The hybrid-search SQL statement followed by the Rust
`.take(limit)`: candidate rows are those present in at least one CTE
(`WHERE vec.rowid IS NOT NULL OR fts.rowid IS NOT NULL`), ordered by
`combined_rank DESC`, truncated by `LIMIT ?2` (= `3 * limit`) in SQL and
then by `take(limit)` in Rust. -/
def hybridRows {α : Type} (vecRows ftsRows : List (Nat × Rat))
    (tbl : List (SRow α)) (limit : Nat) : List (SRow α) :=
  let k := 3 * limit
  let vecM := vecTop vecRows k
  let ftsM := ftsTop ftsRows k
  let cands := tbl.filter
    (fun r => (rankOf vecM r.rowid).isSome || (rankOf ftsM r.rowid).isSome)
  let sorted := cands.mergeSort (rrfLe vecM ftsM)
  (sorted.take k).take limit

/-- The FTS5-only fallback statement: join the match results to the base
table, order by the intrinsic rank, `LIMIT ?2` (= `limit`). -/
def ftsOnlyRows {α : Type} (ftsRows : List (Nat × Rat))
    (tbl : List (SRow α)) (limit : Nat) : List (SRow α) :=
  ((ftsRows.mergeSort sndLe).flatMap
      (fun pr => tbl.filter (fun r => r.rowid == pr.1))).take limit

/-- Submitting a pattern to FTS5 `MATCH`: the fts5 query parser rejects
the empty pattern with a syntax error (so the whole statement errors out
through `query_map`); any other pattern produces the matcher's rows. -/
def ftsMatchExec (sem : String → List (Nat × Rat)) (q : String) :
    Except String (List (Nat × Rat)) :=
  if q = "" then .error "fts5 syntax error: empty query" else .ok (sem q)

/-- The shared shape of `search_knowledge` and
`search_messages_with_embedding`: with a query embedding available
(`queryVecRows = some …`) run the RRF statement, otherwise fall back to
FTS5-only. -/
def hybridSearch {α : Type} (sem : String → List (Nat × Rat))
    (queryVecRows : Option (List (Nat × Rat))) (tbl : List (SRow α))
    (q : String) (limit : Nat) : Except String (List (SRow α)) :=
  match queryVecRows with
  | some vecRows =>
    (ftsMatchExec sem q).map (fun ftsRows => hybridRows vecRows ftsRows tbl limit)
  | none =>
    (ftsMatchExec sem q).map (fun ftsRows => ftsOnlyRows ftsRows tbl limit)

/-- Knowledge-row payload, as selected by `search_knowledge`. -/
structure KnowledgeEntry where
  id : String
  category : String
  key : String
  value : String
  source : Option String
deriving DecidableEq

/-- Message payload, as selected by `search_messages_with_embedding`. -/
structure MsgPayload where
  role : String
  content : Option String
  tool_call_id : Option String
deriving DecidableEq

/-- `search_knowledge` (src/memory/knowledge.rs): `queryVecRows` is
`some` of the vec-match rows when `try_embed_one` returned an embedding,
`none` when the embedder is unconfigured or failed. -/
def search_knowledge (sem : String → List (Nat × Rat))
    (queryVecRows : Option (List (Nat × Rat))) (tbl : List (SRow KnowledgeEntry))
    (q : String) (limit : Nat) : Except String (List (SRow KnowledgeEntry)) :=
  hybridSearch sem queryVecRows tbl q limit

/-- `search_messages_with_embedding` (src/memory/conversations.rs). -/
def search_messages_with_embedding (sem : String → List (Nat × Rat))
    (queryVecRows : Option (List (Nat × Rat))) (tbl : List (SRow MsgPayload))
    (q : String) (limit : Nat) : Except String (List (SRow MsgPayload)) :=
  hybridSearch sem queryVecRows tbl q limit

/-! Spec-side restatement of the fused ranking, written from the
specification's words: score each candidate as
`0.5/(K + r_vec) + 0.5/(K + r_fts)` with `K = 60`, a missing presence
contributing `0`, and return the top `limit` rows by descending score.
To be compared with `hybridRows` above. -/

/-- The specification's RRF score of a row. -/
def specScore (vecM ftsM : List (Nat × Rat)) (rid : Nat) : Rat :=
  (match rankOf vecM rid with
   | some r => (1 / 2) / (60 + (r : Rat))
   | none => 0)
  + (match rankOf ftsM rid with
     | some r => (1 / 2) / (60 + (r : Rat))
     | none => 0)

/-- Descending order on the specification's score. -/
def specLe {α : Type} (vecM ftsM : List (Nat × Rat)) (a b : SRow α) : Bool :=
  specScore vecM ftsM b.rowid ≤ specScore vecM ftsM a.rowid

/-- The specification's description of hybrid search: vector list = top
`3 * limit` by ascending distance, FTS list = top `3 * limit` by rank,
candidates = rows present in at least one list, result = top `limit`
candidates by descending RRF score. -/
def specHybridTop {α : Type} (vecRows ftsRows : List (Nat × Rat))
    (tbl : List (SRow α)) (limit : Nat) : List (SRow α) :=
  let vecM := vecTop vecRows (3 * limit)
  let ftsM := ftsTop ftsRows (3 * limit)
  let cands := tbl.filter
    (fun r => (rankOf vecM r.rowid).isSome || (rankOf ftsM r.rowid).isSome)
  (cands.mergeSort (specLe vecM ftsM)).take limit

/-! ## Clearing a conversation (src/memory/conversations.rs
`clear_conversation`) -/

structure ConvRow where
  id : String
  platform : String
  user_id : String
deriving DecidableEq

structure MsgRow where
  rowid : Nat
  conversation_id : String
deriving DecidableEq

structure ConvState where
  convs : List ConvRow
  msgs : List MsgRow
  msgEmbeds : List (Nat × List Rat)
deriving DecidableEq

/-- The `WHERE platform = ?1 AND user_id = ?2` predicate. -/
def convMatches (p u : String) (c : ConvRow) : Bool :=
  c.platform == p && c.user_id == u

/-- `SELECT id FROM conversations WHERE platform = ?1 AND user_id = ?2`. -/
def targetConvIds (p u : String) (st : ConvState) : List String :=
  (st.convs.filter (convMatches p u)).map (·.id)

/-- `SELECT m.rowid FROM messages m JOIN conversations c ON
m.conversation_id = c.id WHERE c.platform = ?1 AND c.user_id = ?2`. -/
def targetMsgRowids (p u : String) (st : ConvState) : List Nat :=
  (st.msgs.filter (fun m => (targetConvIds p u st).contains m.conversation_id)).map
    (·.rowid)

/-- `clear_conversation` from src/memory/conversations.rs: three DELETE
statements executed in order — dependent embeddings first, then
messages, then conversations — each subquery reading the state left by
the previous statement. -/
def clear_conversation (p u : String) (st : ConvState) : ConvState :=
  let st1 :=
    { st with msgEmbeds :=
        st.msgEmbeds.filter (fun e => !((targetMsgRowids p u st).contains e.1)) }
  let st2 :=
    { st1 with msgs :=
        st1.msgs.filter (fun m => !((targetConvIds p u st1).contains m.conversation_id)) }
  { st2 with convs := st2.convs.filter (fun c => !(convMatches p u c)) }

/-! ## Background job runner (src/main.rs, the `job_rx` consumer)

One loop iteration of the runner, as the sequence of observable actions
it performs: the status writes against the task store, the
`process_message` invocation, and the outbound sends.  The agent call's
outcome and the chat-id parse are inputs. -/

structure JobReq where
  task_id : String
  is_recurring : Bool
  text : String
  chat_id : String

inductive RunnerEvent where
  | setStatus (taskId status : String)
  | invokeAgent (text : String)
  | sendChunk (chunk : List Char)
deriving DecidableEq

/-- One iteration of the background runner on a received
`ScheduledJobRequest` (src/main.rs): mark a one-shot `completed` before
running, invoke the agent, overwrite to `failed` on error (one-shot
only), else chunk the response at 4000 chars and send the nonempty
chunks (an unparseable chat id is logged and the iteration ends). -/
def runner_iteration (req : JobReq) (agentResult : Except String (List Char))
    (parseChat : String → Option Int) : List RunnerEvent :=
  (if req.is_recurring then [] else [.setStatus req.task_id "completed"])
  ++ [.invokeAgent req.text]
  ++ match agentResult with
     | .error _ =>
       if req.is_recurring then [] else [.setStatus req.task_id "failed"]
     | .ok resp =>
       match parseChat req.chat_id with
       | none => []
       | some _ =>
         (((split_response_chunks resp 4000).getD []).filter
            (fun c => !c.isEmpty)).map .sendChunk

/-! ## Startup restore of scheduled tasks (src/agent.rs
`restore_scheduled_tasks`, `parse_one_shot_delay`)

Wall-clock parsing is abstracted: `parse` maps a trigger string to the
instant it denotes (`none` when chrono accepts neither format), and `now`
is the current instant; instants are integers on an abstract timeline.
The engine's per-task add outcome is the abstract `engineOk`. -/

structure STask where
  id : String
  user_id : String
  chat_id : String
  trigger_type : String
  trigger_value : String
  prompt : String
  description : String
  status : String

/-- `parse_one_shot_delay` from src/agent.rs: errors when the string is
unparseable or the instant is not strictly in the future, else returns
the remaining duration. -/
def parse_one_shot_delay (parse : String → Option Int) (now : Int)
    (tv : String) : Except String Int :=
  match parse tv with
  | none => .error "Invalid datetime"
  | some t => if t ≤ now then .error "That time has already passed" else .ok (t - now)

inductive RestoreAction where
  | setStatus (taskId status : String)
  | addOneShot (taskId : String) (delay : Int) (desc : String)
  | addCron (taskId expr desc : String)
  | updateJobId (taskId : String)
deriving DecidableEq

/-- The restore loop body for one stored task: a one-shot whose delay
parses is registered with `add_one_shot_job` (persisting the engine
handle on success); a one-shot whose trigger has passed or is invalid is
marked `completed` and skipped; anything else goes to `add_cron_job`
with the stored trigger value. -/
def restoreTask (parse : String → Option Int) (now : Int)
    (engineOk : String → Bool) (t : STask) : List RestoreAction :=
  if t.trigger_type = "one_shot" then
    match parse_one_shot_delay parse now t.trigger_value with
    | .ok d =>
      .addOneShot t.id d t.description ::
        (if engineOk t.id then [.updateJobId t.id] else [])
    | .error _ => [.setStatus t.id "completed"]
  else
    .addCron t.id t.trigger_value t.description ::
      (if engineOk t.id then [.updateJobId t.id] else [])

/-- `restore_scheduled_tasks` from src/agent.rs: iterate the rows
returned by `list_all_active` (`WHERE status = 'active'`, src/scheduler/
reminders.rs) and run the loop body on each. -/
def restore_scheduled_tasks (parse : String → Option Int) (now : Int)
    (engineOk : String → Bool) (tasks : List STask) : List RestoreAction :=
  (tasks.filter (fun t => t.status == "active")).flatMap
    (restoreTask parse now engineOk)

/-! # Theorems -/

/-! ## Helper lemmas -/

theorem byteLen_cons (c : Char) (s : List Char) :
    byteLen (c :: s) = c.utf8Size + byteLen s := by
  simp [byteLen]

theorem skillNameCharOk_iff (c : Char) :
    skillNameCharOk c = true ↔ specNameChar c := by
  simp only [skillNameCharOk, specNameChar, Bool.or_eq_true, Bool.and_eq_true,
    decide_eq_true_eq]
  constructor
  · rintro ((⟨h1, h2⟩ | ⟨h1, h2⟩) | h3)
    · exact Or.inl ⟨h1, h2⟩
    · exact Or.inr (Or.inl ⟨h1, h2⟩)
    · exact Or.inr (Or.inr h3)
  · rintro (⟨h1, h2⟩ | ⟨h1, h2⟩ | h3)
    · exact Or.inl (Or.inl ⟨h1, h2⟩)
    · exact Or.inl (Or.inr ⟨h1, h2⟩)
    · exact Or.inr h3

theorem skillNameCharOk_utf8Size (c : Char) (h : skillNameCharOk c = true) :
    c.utf8Size = 1 := by
  have hv : c.val ≤ 0x7F := by
    simp only [skillNameCharOk, Bool.or_eq_true, Bool.and_eq_true,
      decide_eq_true_eq] at h
    show c.toNat ≤ 127
    rcases h with (⟨_, h2⟩ | ⟨_, h2⟩) | h3
    · omega
    · omega
    · subst h3; decide
  simp [Char.utf8Size, hv]

theorem byteLen_eq_length_of_all_ok (name : List Char)
    (h : name.all skillNameCharOk = true) : byteLen name = name.length := by
  induction name with
  | nil => rfl
  | cons c cs ih =>
    simp only [List.all_cons, Bool.and_eq_true] at h
    rw [byteLen_cons, skillNameCharOk_utf8Size c h.1, ih h.2, List.length_cons]
    omega

/-! ## C8 — skill name / path validators -/

/-- C8: `validate_skill_name` accepts a string iff it matches
`[a-z0-9-]` repeated 1 to 64 times, and `validate_skill_path` rejects
exactly the empty path, a path starting with a slash, and a path with a
`..` segment among its slash-separated segments, accepting every other
relative path. -/
theorem skill_validators_exact (name path : List Char) :
    (validate_skill_name name = .ok () ↔
      (1 ≤ name.length ∧ name.length ≤ 64 ∧ ∀ c ∈ name, specNameChar c)) ∧
    (validate_skill_path path = .ok () ↔
      (path ≠ [] ∧ path.head? ≠ some '/' ∧ ['.', '.'] ∉ splitOnSlash path)) := by
  constructor
  · constructor
    · intro hok
      by_cases hE : name.isEmpty = true
      · simp [validate_skill_name, hE] at hok
      · by_cases h64 : 64 < byteLen name
        · simp [validate_skill_name, hE, h64] at hok
        · by_cases hall : name.all skillNameCharOk = true
          · have hlen := byteLen_eq_length_of_all_ok name hall
            have hne : name ≠ [] := by
              intro hnil; rw [hnil] at hE; exact hE rfl
            refine ⟨?_, by omega, ?_⟩
            · cases name with
              | nil => exact absurd rfl hne
              | cons c cs => simp
            · intro c hc
              exact (skillNameCharOk_iff c).mp (by
                rw [List.all_eq_true] at hall; exact hall c hc)
          · simp [validate_skill_name, hE, h64, hall] at hok
    · rintro ⟨hlen1, hlen2, hchars⟩
      have hall : name.all skillNameCharOk = true := by
        rw [List.all_eq_true]
        intro c hc
        exact (skillNameCharOk_iff c).mpr (hchars c hc)
      have hbl := byteLen_eq_length_of_all_ok name hall
      have hne : ¬ name.isEmpty = true := by
        cases name with
        | nil => simp at hlen1
        | cons c cs => simp
      simp [validate_skill_name, hne, hall]
      omega
  · constructor
    · intro hok
      by_cases hE : path.isEmpty = true
      · simp [validate_skill_path, hE] at hok
      · by_cases hH : path.head? = some '/'
        · simp [validate_skill_path, hE, hH] at hok
        · by_cases hA : ((splitOnSlash path).any fun seg => seg == ['.', '.']) = true
          · simp [validate_skill_path, hE, hH, hA] at hok
          · refine ⟨?_, hH, ?_⟩
            · intro hnil; rw [hnil] at hE; exact hE rfl
            · intro hmem
              exact hA (by
                rw [List.any_eq_true]
                exact ⟨['.', '.'], hmem, by simp⟩)
    · rintro ⟨hne, hhead, hdots⟩
      have hA : ¬ ((splitOnSlash path).any fun seg => seg == ['.', '.']) = true := by
        rw [List.any_eq_true]
        rintro ⟨seg, hseg, hbeq⟩
        rw [beq_iff_eq] at hbeq
        exact hdots (hbeq ▸ hseg)
      have hE : ¬ path.isEmpty = true := by simp [hne]
      simp [validate_skill_path, hE, hhead, hA]

/-- C8 witness: a concrete accepted name and path. -/
theorem skill_validators_exact_witness :
    validate_skill_name ['a', '-', '1'] = .ok () ∧
    validate_skill_path ['s', '/', 'f'] = .ok () :=
  ⟨(skill_validators_exact ['a', '-', '1'] ['s', '/', 'f']).1.mpr
      ⟨by decide, by decide, by decide⟩,
   (skill_validators_exact ['a', '-', '1'] ['s', '/', 'f']).2.mpr
      ⟨by decide, by decide, by decide⟩⟩

/-! ## C7 — clear_conversation leaves no rows -/

/-- C7: after `clear_conversation(platform, user_id)` — which deletes
dependent embeddings first, then messages, then conversations, each via
a subquery — no conversation row for `(platform, user_id)` remains, no
message row of any of those conversations remains, and no embedding row
of any of those messages remains; rows outside that scope survive. -/
theorem clear_conversation_removes_all (p u : String) (st : ConvState) :
    (∀ c ∈ (clear_conversation p u st).convs, convMatches p u c = false) ∧
    (∀ m ∈ (clear_conversation p u st).msgs,
      (targetConvIds p u st).contains m.conversation_id = false) ∧
    (∀ e ∈ (clear_conversation p u st).msgEmbeds,
      (targetMsgRowids p u st).contains e.1 = false) ∧
    (∀ c ∈ st.convs, convMatches p u c = false →
      c ∈ (clear_conversation p u st).convs) ∧
    (∀ m ∈ st.msgs, (targetConvIds p u st).contains m.conversation_id = false →
      m ∈ (clear_conversation p u st).msgs) ∧
    (∀ e ∈ st.msgEmbeds, (targetMsgRowids p u st).contains e.1 = false →
      e ∈ (clear_conversation p u st).msgEmbeds) := by
  refine ⟨?_, ?_, ?_, ?_, ?_, ?_⟩
  · intro c hc
    simp only [clear_conversation, List.mem_filter] at hc
    simpa using hc.2
  · intro m hm
    simp only [clear_conversation, List.mem_filter] at hm
    simpa using hm.2
  · intro e he
    simp only [clear_conversation, List.mem_filter] at he
    simpa using he.2
  · intro c hc hnc
    simp only [clear_conversation, List.mem_filter]
    exact ⟨hc, by simp [hnc]⟩
  · intro m hm hnm
    simp only [clear_conversation, List.mem_filter]
    exact ⟨hm, by
      simp only [Bool.not_eq_eq_eq_not, Bool.not_true]
      exact hnm⟩
  · intro e he hne
    simp only [clear_conversation, List.mem_filter]
    exact ⟨he, by
      simp only [Bool.not_eq_eq_eq_not, Bool.not_true]
      exact hne⟩

/-- C7 witness: a state with one matching conversation, its message and
embedding, plus one unrelated conversation that must survive. -/
theorem clear_conversation_removes_all_witness :
    (⟨"c2", "telegram", "8"⟩ : ConvRow) ∈
      (clear_conversation "telegram" "7"
        ⟨[⟨"c1", "telegram", "7"⟩, ⟨"c2", "telegram", "8"⟩],
         [⟨1, "c1"⟩], [(1, [])]⟩).convs :=
  (clear_conversation_removes_all "telegram" "7"
      ⟨[⟨"c1", "telegram", "7"⟩, ⟨"c2", "telegram", "8"⟩],
       [⟨1, "c1"⟩], [(1, [])]⟩).2.2.2.1
    ⟨"c2", "telegram", "8"⟩ (by decide) (by decide)

/-! ## C3 — one-shot status sequencing in the background runner -/

/-- C3: in one background-runner iteration for a one-shot request, the
`completed` status write happens before the agent invocation, an agent
error then overwrites the status to `failed`, and a recurring request
triggers no status write at all. -/
theorem runner_one_shot_status_order (req : JobReq)
    (agentResult : Except String (List Char)) (parseChat : String → Option Int) :
    (req.is_recurring = false →
      ∃ rest, runner_iteration req agentResult parseChat =
          RunnerEvent.setStatus req.task_id "completed" ::
            RunnerEvent.invokeAgent req.text :: rest ∧
        (∀ e, agentResult = .error e →
          rest = [RunnerEvent.setStatus req.task_id "failed"]) ∧
        (∀ r, agentResult = .ok r →
          ∀ s stat, RunnerEvent.setStatus s stat ∉ rest)) ∧
    (req.is_recurring = true →
      ∀ s stat, RunnerEvent.setStatus s stat ∉
        runner_iteration req agentResult parseChat) := by
  constructor
  · intro hrec
    rcases agentResult with e | r
    · exact ⟨[RunnerEvent.setStatus req.task_id "failed"],
        by simp [runner_iteration, hrec],
        fun _ _ => rfl,
        fun r hr => Except.noConfusion hr⟩
    · refine ⟨(match parseChat req.chat_id with
          | none => []
          | some _ => (((split_response_chunks r 4000).getD []).filter
              (fun c => !c.isEmpty)).map RunnerEvent.sendChunk), ?_, ?_, ?_⟩
      · rcases hp : parseChat req.chat_id with _ | cid <;>
          simp [runner_iteration, hrec, hp]
      · intro e he
        exact Except.noConfusion he
      · intro r' hr' s stat hmem2
        rcases hp : parseChat req.chat_id with _ | cid <;> rw [hp] at hmem2
        · simp at hmem2
        · simp only [List.mem_map] at hmem2
          obtain ⟨x, -, hx⟩ := hmem2
          exact RunnerEvent.noConfusion hx
  · intro hrec s stat hmem2
    rcases agentResult with e | r
    · simp [runner_iteration, hrec] at hmem2
    · rcases hp : parseChat req.chat_id with _ | cid <;>
        simp [runner_iteration, hrec, hp] at hmem2

/-- C3 witness: a one-shot request whose agent call fails — the trace is
exactly completed, invoke, failed. -/
theorem runner_one_shot_status_order_witness :
    runner_iteration ⟨"t1", false, "hi", "5"⟩ (.error "boom") (fun _ => none) =
      [RunnerEvent.setStatus "t1" "completed", RunnerEvent.invokeAgent "hi",
       RunnerEvent.setStatus "t1" "failed"] := by
  obtain ⟨rest, htrace, herr, -⟩ :=
    (runner_one_shot_status_order ⟨"t1", false, "hi", "5"⟩ (.error "boom")
      (fun _ => none)).1 rfl
  rw [htrace, herr "boom" rfl]

/-! ## C5 — startup restore of scheduled tasks -/

/-- C5: during startup restore, an active one-shot task whose trigger is
unparseable or not in the future is marked `completed` and never
registered; one whose instant lies in the future is registered via
`add_one_shot_job` with the remaining delay and gets no status write;
an active recurring task is registered via `add_cron_job` with its
stored trigger value.  Every action of an active task's loop body is
performed by the full restore pass. -/
theorem restore_one_shot_pruning (parse : String → Option Int) (now : Int)
    (engineOk : String → Bool) (tasks : List STask) (t : STask)
    (hmem : t ∈ tasks) (hact : t.status = "active") :
    (t.trigger_type = "one_shot" →
      ((parse t.trigger_value = none ∨
          (∃ ti, parse t.trigger_value = some ti ∧ ti ≤ now)) →
        restoreTask parse now engineOk t = [.setStatus t.id "completed"]) ∧
      (∀ ti, parse t.trigger_value = some ti → now < ti →
        (∃ rest, restoreTask parse now engineOk t =
            .addOneShot t.id (ti - now) t.description :: rest) ∧
        (∀ s stat, RestoreAction.setStatus s stat ∉
          restoreTask parse now engineOk t))) ∧
    (t.trigger_type ≠ "one_shot" →
      ∃ rest, restoreTask parse now engineOk t =
        .addCron t.id t.trigger_value t.description :: rest) ∧
    (∀ a ∈ restoreTask parse now engineOk t,
      a ∈ restore_scheduled_tasks parse now engineOk tasks) := by
  refine ⟨?_, ?_, ?_⟩
  · intro hos
    constructor
    · rintro (hnone | ⟨ti, hsome, hle⟩)
      · simp [restoreTask, hos, parse_one_shot_delay, hnone]
      · simp [restoreTask, hos, parse_one_shot_delay, hsome, hle]
    · intro ti hsome hlt
      have hnle : ¬ ti ≤ now := by omega
      constructor
      · exact ⟨(if engineOk t.id then [RestoreAction.updateJobId t.id] else []),
          by simp [restoreTask, hos, parse_one_shot_delay, hsome, hnle]⟩
      · intro s stat hmem2
        simp only [restoreTask, hos, if_pos, parse_one_shot_delay, hsome,
          if_neg hnle, List.mem_cons] at hmem2
        rcases hmem2 with h | h
        · exact RestoreAction.noConfusion h
        · rcases he : engineOk t.id with _ | _ <;> rw [he] at h <;> simp at h
  · intro hnos
    exact ⟨(if engineOk t.id then [RestoreAction.updateJobId t.id] else []),
      by simp [restoreTask, hnos]⟩
  · intro a ha
    rw [restore_scheduled_tasks, List.mem_flatMap]
    refine ⟨t, ?_, ha⟩
    rw [List.mem_filter]
    exact ⟨hmem, by simp [hact]⟩

/-- C5 witness: one active one-shot task in the past is pruned to
`completed`. -/
theorem restore_one_shot_pruning_witness :
    restoreTask (fun _ => some 3) 10 (fun _ => true)
        ⟨"t1", "u", "5", "one_shot", "x", "p", "d", "active"⟩ =
      [.setStatus "t1" "completed"] :=
  ((restore_one_shot_pruning (fun _ => some 3) 10 (fun _ => true)
      [⟨"t1", "u", "5", "one_shot", "x", "p", "d", "active"⟩]
      ⟨"t1", "u", "5", "one_shot", "x", "p", "d", "active"⟩
      (List.mem_singleton.mpr rfl) rfl).1 rfl).1
    (Or.inr ⟨3, rfl, by omega⟩)

/-! ## Knowledge-store lemmas -/

theorem kMatch_kUpdate (c k : String) (now : Nat) (v : String)
    (src : Option String) (r : KRow) :
    kMatch c k (kUpdate now v src r) = kMatch c k r := rfl

theorem remember_rows_update (st : KState) (c k v : String) (now : Nat)
    (newId : String) (emb : Option (List Rat)) (src : Option String)
    (hA : st.rows.any (kMatch c k) = true) :
    (remember now newId emb c k v src st).rows =
      st.rows.map (fun x => if kMatch c k x then kUpdate now v src x else x) := by
  simp [remember, hA]

theorem remember_rows_insert (st : KState) (c k v : String) (now : Nat)
    (newId : String) (emb : Option (List Rat)) (src : Option String)
    (hA : ¬ st.rows.any (kMatch c k) = true) :
    (remember now newId emb c k v src st).rows =
      st.rows ++ [⟨st.nextRowid, newId, c, k, v, src, now, now⟩] := by
  simp only [remember]
  rw [if_neg hA]

theorem kMatch_comp_update (c k v : String) (now : Nat) (src : Option String) :
    (kMatch c k ∘ fun x => if kMatch c k x then kUpdate now v src x else x)
      = kMatch c k :=
  funext fun x => by
    by_cases h : kMatch c k x = true <;> simp [h, Function.comp, kMatch_kUpdate]

theorem remember_count (st : KState) (c k v : String) (now : Nat)
    (newId : String) (emb : Option (List Rat)) (src : Option String)
    (hU : (st.rows.filter (kMatch c k)).length ≤ 1) :
    ((remember now newId emb c k v src st).rows.filter (kMatch c k)).length = 1 := by
  by_cases hA : st.rows.any (kMatch c k) = true
  · rw [remember_rows_update st c k v now newId emb src hA, List.filter_map,
      List.length_map, List.filter_congr (fun x _ =>
        congrFun (kMatch_comp_update c k v now src) x)]
    obtain ⟨x, hx, hpx⟩ := List.any_eq_true.mp hA
    have hpos := List.length_pos_of_mem (List.mem_filter.mpr ⟨hx, hpx⟩)
    omega
  · rw [remember_rows_insert st c k v now newId emb src hA, List.filter_append]
    have h1 : st.rows.filter (kMatch c k) = [] := by
      rw [List.filter_eq_nil_iff]
      intro x hx hpx
      exact hA (List.any_eq_true.mpr ⟨x, hx, hpx⟩)
    rw [h1]
    simp [kMatch]

theorem recall_remember (st : KState) (c k v : String) (now : Nat)
    (newId : String) (emb : Option (List Rat)) (src : Option String) :
    recallKnowledge (remember now newId emb c k v src st) c k = some v := by
  by_cases hA : st.rows.any (kMatch c k) = true
  · unfold recallKnowledge
    rw [remember_rows_update st c k v now newId emb src hA, List.find?_map,
      kMatch_comp_update c k v now src]
    obtain ⟨x, hx⟩ := Option.isSome_iff_exists.mp
      (List.find?_isSome.mpr (List.any_eq_true.mp hA))
    rw [hx]
    have hpx : kMatch c k x = true := List.find?_some hx
    simp [hpx, kUpdate]
  · unfold recallKnowledge
    rw [remember_rows_insert st c k v now newId emb src hA, List.find?_append]
    have h1 : st.rows.find? (kMatch c k) = none := by
      rw [List.find?_eq_none]
      intro x hx hpx
      exact hA (List.any_eq_true.mpr ⟨x, hx, hpx⟩)
    rw [h1]
    simp [kMatch]

/-! ## C4 — upsert then recall -/

/-- C4: two `remember`s on the same `(category, key)` leave the second
value as the `recall` result, and — given the unique index
`idx_knowledge_key`, i.e. at most one matching row initially — exactly
one row for that `(category, key)`. -/
theorem remember_twice_recall (st : KState) (c k v1 v2 : String) (now1 now2 : Nat)
    (id1 id2 : String) (e1 e2 : Option (List Rat)) (s1 s2 : Option String)
    (hU : (st.rows.filter (kMatch c k)).length ≤ 1) :
    recallKnowledge (remember now2 id2 e2 c k v2 s2
        (remember now1 id1 e1 c k v1 s1 st)) c k = some v2 ∧
    ((remember now2 id2 e2 c k v2 s2
        (remember now1 id1 e1 c k v1 s1 st)).rows.filter (kMatch c k)).length = 1 := by
  refine ⟨recall_remember _ c k v2 now2 id2 e2 s2, ?_⟩
  have h1 := remember_count st c k v1 now1 id1 e1 s1 hU
  exact remember_count _ c k v2 now2 id2 e2 s2 (le_of_eq h1)

/-- C4 witness: on an initially empty store. -/
theorem remember_twice_recall_witness :
    recallKnowledge (remember 2 "idB" none "cat" "k" "v2" none
        (remember 1 "idA" none "cat" "k" "v1" none ⟨[], [], 0⟩)) "cat" "k" =
      some "v2" :=
  (remember_twice_recall ⟨[], [], 0⟩ "cat" "k" "v1" "v2" 1 2 "idA" "idB"
      none none none none (by simp)).1

/-! ## C10 — the upsert's frame -/

/-- C10: when a row for `(category, key)` already exists, a second
`remember` leaves every row's `rowid`, `id`, `category`, `key` and
`created_at` unchanged (the freshly generated UUID is discarded, no new
rowid is allocated), and the matching row now carries the new value,
source, and `updated_at`. -/
theorem remember_update_frame (st : KState) (r : KRow) (c k v2 : String)
    (now : Nat) (newId : String) (emb : Option (List Rat)) (src2 : Option String)
    (hfind : st.rows.find? (kMatch c k) = some r) :
    (remember now newId emb c k v2 src2 st).rows.find? (kMatch c k) =
      some (kUpdate now v2 src2 r) ∧
    (remember now newId emb c k v2 src2 st).rows.map
        (fun x => (x.rowid, x.id, x.category, x.key, x.created_at)) =
      st.rows.map (fun x => (x.rowid, x.id, x.category, x.key, x.created_at)) ∧
    (remember now newId emb c k v2 src2 st).nextRowid = st.nextRowid := by
  have hA : st.rows.any (kMatch c k) = true :=
    List.any_eq_true.mpr
      ⟨r, List.mem_of_find?_eq_some hfind, List.find?_some hfind⟩
  have hrows := remember_rows_update st c k v2 now newId emb src2 hA
  refine ⟨?_, ?_, ?_⟩
  · rw [hrows, List.find?_map, kMatch_comp_update c k v2 now src2, hfind]
    have hpr : kMatch c k r = true := List.find?_some hfind
    simp [hpr]
  · rw [hrows, List.map_map]
    refine List.map_congr_left ?_
    intro x _
    by_cases h : kMatch c k x = true <;> simp [h, Function.comp, kUpdate]
  · simp [remember, hA]

/-- C10 witness: a concrete store with one existing row keeps its rowid,
UUID and creation time. -/
theorem remember_update_frame_witness :
    (remember 99 "fresh" none "cat" "k" "v2" (some "s2")
        ⟨[⟨5, "orig", "cat", "k", "v1", none, 10, 10⟩], [], 6⟩).rows.find?
      (kMatch "cat" "k") =
      some ⟨5, "orig", "cat", "k", "v2", some "s2", 10, 99⟩ :=
  (remember_update_frame ⟨[⟨5, "orig", "cat", "k", "v1", none, 10, 10⟩], [], 6⟩
      ⟨5, "orig", "cat", "k", "v1", none, 10, 10⟩ "cat" "k" "v2" 99 "fresh"
      none (some "s2") (by simp [kMatch])).1

/-! ## Chunking lemmas -/

theorem byteLen_append (a b : List Char) :
    byteLen (a ++ b) = byteLen a + byteLen b := by
  simp [byteLen]

theorem length_le_byteLen (s : List Char) : s.length ≤ byteLen s := by
  induction s with
  | nil => simp [byteLen]
  | cons c cs ih =>
    rw [byteLen_cons, List.length_cons]
    have := Char.utf8Size_pos c
    omega

theorem char_utf8Size_le_four (c : Char) : c.utf8Size ≤ 4 := by
  simp only [Char.utf8Size]
  split
  · omega
  · split
    · omega
    · split <;> omega

theorem takeBytes_length_le (w : Nat) (l : List Char) :
    (takeBytes w l).length ≤ l.length := by
  induction l generalizing w with
  | nil => simp [takeBytes]
  | cons c cs ih =>
    rw [takeBytes]
    by_cases h : c.utf8Size ≤ w
    · rw [if_pos h]
      simpa using ih (w - c.utf8Size)
    · rw [if_neg h]
      simp

theorem byteLen_takeBytes_le (w : Nat) (l : List Char) :
    byteLen (takeBytes w l) ≤ w := by
  induction l generalizing w with
  | nil => simp [takeBytes, byteLen]
  | cons c cs ih =>
    rw [takeBytes]
    by_cases h : c.utf8Size ≤ w
    · rw [if_pos h, byteLen_cons]
      have := ih (w - c.utf8Size)
      omega
    · rw [if_neg h]
      simp [byteLen]

theorem takeBytes_eq_take (w : Nat) (l : List Char) :
    takeBytes w l = l.take (takeBytes w l).length := by
  induction l generalizing w with
  | nil => simp [takeBytes]
  | cons c cs ih =>
    rw [takeBytes]
    by_cases h : c.utf8Size ≤ w
    · rw [if_pos h]
      simp only [List.length_cons, List.take_succ_cons]
      exact congrArg (c :: ·) (ih (w - c.utf8Size))
    · rw [if_neg h]
      simp

theorem byteLen_take_le (l : List Char) (n : Nat) :
    byteLen (l.take n) ≤ byteLen l := by
  conv_rhs => rw [← List.take_append_drop n l]
  rw [byteLen_append]
  omega

theorem byteLen_take_le_of_le (w n : Nat) (l : List Char)
    (h : n ≤ (takeBytes w l).length) : byteLen (l.take n) ≤ w := by
  have h1 : l.take n = (takeBytes w l).take n := by
    conv_rhs => rw [takeBytes_eq_take w l]
    rw [List.take_take, Nat.min_eq_left h]
  calc byteLen (l.take n) = byteLen ((takeBytes w l).take n) := by rw [h1]
    _ ≤ byteLen (takeBytes w l) := byteLen_take_le _ n
    _ ≤ w := byteLen_takeBytes_le w l

theorem lastIdxOf_lt_length (c : Char) (l : List Char) (j : Nat)
    (h : lastIdxOf c l = some j) : j < l.length := by
  induction l generalizing j with
  | nil => simp [lastIdxOf] at h
  | cons a as ih =>
    simp only [lastIdxOf] at h
    cases hrec : lastIdxOf c as with
    | some i =>
      rw [hrec] at h
      simp only [Option.some.injEq] at h
      have := ih i hrec
      simp only [List.length_cons]
      omega
    | none =>
      rw [hrec] at h
      simp only [List.length_cons]
      by_cases hac : a = c
      · rw [if_pos hac] at h
        simp only [Option.some.injEq] at h
        omega
      · rw [if_neg hac] at h
        exact absurd h (by simp)

theorem splitChunkLen_le_length (w : Nat) (rem : List Char) :
    splitChunkLen w rem ≤ rem.length := by
  simp only [splitChunkLen]
  by_cases hfits : byteLen rem ≤ w
  · rw [if_pos hfits]
  · rw [if_neg hfits]
    have hplen := takeBytes_length_le w rem
    cases h1 : lastIdxOf '\n' (takeBytes w rem) with
    | some j =>
      simp only [h1]
      have := lastIdxOf_lt_length _ _ _ h1
      omega
    | none =>
      simp only [h1]
      cases h2 : lastIdxOf ' ' (takeBytes w rem) with
      | some j =>
        simp only [h2]
        have := lastIdxOf_lt_length _ _ _ h2
        omega
      | none =>
        simp only [h2]
        omega

theorem splitChunkLen_pos (w : Nat) (rem : List Char) (hw : 4 ≤ w)
    (hne : rem ≠ []) : 0 < splitChunkLen w rem := by
  simp only [splitChunkLen]
  by_cases hfits : byteLen rem ≤ w
  · rw [if_pos hfits]
    cases rem with
    | nil => exact absurd rfl hne
    | cons c cs => simp
  · rw [if_neg hfits]
    cases rem with
    | nil => exact absurd rfl hne
    | cons c cs =>
      have hsz : c.utf8Size ≤ w := le_trans (char_utf8Size_le_four c) hw
      rw [takeBytes, if_pos hsz]
      cases h1 : lastIdxOf '\n' (c :: takeBytes (w - c.utf8Size) cs) with
      | some j => simp only [h1]; omega
      | none =>
        simp only [h1]
        cases h2 : lastIdxOf ' ' (c :: takeBytes (w - c.utf8Size) cs) with
        | some j => simp only [h2]; omega
        | none => simp only [h2, List.length_cons]; omega

theorem byteLen_take_splitChunkLen (w : Nat) (rem : List Char)
    (hnf : ¬ byteLen rem ≤ w) :
    byteLen (rem.take (splitChunkLen w rem)) ≤ w := by
  simp only [splitChunkLen]
  rw [if_neg hnf]
  cases h1 : lastIdxOf '\n' (takeBytes w rem) with
  | some j =>
    simp only [h1]
    exact byteLen_take_le_of_le w (j + 1) rem (lastIdxOf_lt_length _ _ _ h1)
  | none =>
    simp only [h1]
    cases h2 : lastIdxOf ' ' (takeBytes w rem) with
    | some j =>
      simp only [h2]
      exact byteLen_take_le_of_le w (j + 1) rem (lastIdxOf_lt_length _ _ _ h2)
    | none =>
      simp only [h2]
      exact byteLen_take_le_of_le w _ rem le_rfl

theorem splitMessageGo_spec (w : Nat) (hw : 4 ≤ w) :
    ∀ fuel rem, rem.length < fuel →
      ∃ cs, splitMessageGo w fuel rem = some cs ∧ cs.flatten = rem ∧
        ∀ c ∈ cs, byteLen c ≤ w := by
  intro fuel
  induction fuel with
  | zero => intro rem h; omega
  | succ n ih =>
    intro rem hlen
    by_cases hE : rem.isEmpty = true
    · refine ⟨[], ?_, ?_, ?_⟩
      · simp [splitMessageGo, hE]
      · simp [List.isEmpty_iff.mp hE]
      · simp
    · have hne : rem ≠ [] := by simpa [List.isEmpty_iff] using hE
      have hpos := splitChunkLen_pos w rem hw hne
      have hle := splitChunkLen_le_length w rem
      have h1 : 1 ≤ rem.length := List.length_pos.mpr hne
      have hdrop : (rem.drop (splitChunkLen w rem)).length < n := by
        rw [List.length_drop]
        omega
      obtain ⟨cs, hgo, hjoin, hbound⟩ := ih (rem.drop (splitChunkLen w rem)) hdrop
      refine ⟨rem.take (splitChunkLen w rem) :: cs, ?_, ?_, ?_⟩
      · simp only [splitMessageGo]
        rw [if_neg hE, hgo]
      · simp only [List.flatten_cons]
        rw [hjoin, List.take_append_drop]
      · intro c hc
        rcases List.mem_cons.mp hc with h | h
        · subst h
          by_cases hfits : byteLen rem ≤ w
          · have heq : splitChunkLen w rem = rem.length := by
              simp [splitChunkLen, hfits]
            rw [heq, List.take_length]
            exact hfits
          · exact byteLen_take_splitChunkLen w rem hfits
        · exact hbound c h

theorem splitRespGo_spec (w : Nat) (hw : 0 < w) :
    ∀ fuel rem, rem.length < fuel →
      ∃ cs, splitRespGo w fuel rem = some cs ∧ cs.flatten = rem ∧
        ∀ c ∈ cs, c.length ≤ w := by
  intro fuel
  induction fuel with
  | zero => intro rem h; omega
  | succ n ih =>
    intro rem hlen
    by_cases hE : rem.isEmpty = true
    · refine ⟨[], ?_, ?_, ?_⟩
      · simp [splitRespGo, hE]
      · simp [List.isEmpty_iff.mp hE]
      · simp
    · have hne : rem ≠ [] := by simpa [List.isEmpty_iff] using hE
      have h1 : 1 ≤ rem.length := List.length_pos.mpr hne
      have hdrop : (rem.drop w).length < n := by
        rw [List.length_drop]
        omega
      obtain ⟨cs, hgo, hjoin, hbound⟩ := ih (rem.drop w) hdrop
      refine ⟨rem.take w :: cs, ?_, ?_, ?_⟩
      · simp only [splitRespGo]
        rw [if_neg hE, hgo]
      · simp only [List.flatten_cons]
        rw [hjoin, List.take_append_drop]
      · intro c hc
        rcases List.mem_cons.mp hc with h | h
        · subst h
          exact List.length_take_le w rem
        · exact hbound c h

/-! ## C6 — message chunking -/

/-- C6 counterexample: at window 1 on the two-byte character e-acute the
loop body of `split_message` consumes nothing (`splitChunkLen … = 0`), so
the loop repeats the same state forever; its fuelled run returns `none`
instead of chunks that concatenate to the input.  The claim's guarantee
therefore fails for some `w > 0`. -/
theorem split_message_small_window_diverges :
    split_message ['é'] 1 = none ∧ splitChunkLen 1 ['é'] = 0 := by
  constructor <;> rfl

/-- C6 amended: `split_response_chunks` satisfies the claim for every
window `w > 0` (chunks are char sequences, hence valid UTF-8 by
construction); `split_message` satisfies it for every window `w ≥ 4` —
each chunk then even fits in `w` bytes, hence also `w` chars, and its
boundaries are char boundaries.  For `w < 4` the byte-window loop of
`split_message` can fail to advance past a multi-byte character and
never terminates. -/
theorem chunking_spec_amended (s : List Char) (w : Nat) :
    (0 < w → ∃ cs, split_response_chunks s w = some cs ∧ cs.flatten = s ∧
      ∀ c ∈ cs, c.length ≤ w) ∧
    (4 ≤ w → ∃ cs, split_message s w = some cs ∧ cs.flatten = s ∧
      ∀ c ∈ cs, byteLen c ≤ w ∧ c.length ≤ w) := by
  constructor
  · intro hw
    by_cases hE : s.isEmpty = true
    · refine ⟨[], ?_, ?_, ?_⟩
      · simp [split_response_chunks, hE]
      · simp [List.isEmpty_iff.mp hE]
      · simp
    · obtain ⟨cs, hgo, hjoin, hbound⟩ :=
        splitRespGo_spec w hw (s.length + 1) s (by omega)
      refine ⟨cs, ?_, hjoin, hbound⟩
      simp only [split_response_chunks]
      rw [if_neg hE, hgo]
  · intro hw
    by_cases hfits : byteLen s ≤ w
    · refine ⟨[s], ?_, by simp, ?_⟩
      · simp [split_message, hfits]
      · intro c hc
        rw [List.mem_singleton] at hc
        rw [hc]
        exact ⟨hfits, le_trans (length_le_byteLen s) hfits⟩
    · obtain ⟨cs, hgo, hjoin, hbound⟩ :=
        splitMessageGo_spec w hw (s.length + 1) s (by omega)
      refine ⟨cs, ?_, hjoin, ?_⟩
      · simp only [split_message]
        rw [if_neg hfits, hgo]
      · intro c hc
        exact ⟨hbound c hc, le_trans (length_le_byteLen c) (hbound c hc)⟩

/-- C6 witness for the amended claim, at a concrete text and windows. -/
theorem chunking_spec_amended_witness :
    (∃ cs, split_response_chunks ['h', 'i'] 1 = some cs ∧
      cs.flatten = ['h', 'i'] ∧ ∀ c ∈ cs, c.length ≤ 1) ∧
    (∃ cs, split_message ['h', 'i'] 4 = some cs ∧ cs.flatten = ['h', 'i'] ∧
      ∀ c ∈ cs, byteLen c ≤ 4 ∧ c.length ≤ 4) :=
  ⟨(chunking_spec_amended ['h', 'i'] 1).1 (by omega),
   (chunking_spec_amended ['h', 'i'] 4).2 (by omega)⟩

/-! ## Hybrid-search lemmas -/

theorem combinedRank_eq_specScore (vecM ftsM : List (Nat × Rat)) (rid : Nat) :
    combinedRank vecM ftsM rid = specScore vecM ftsM rid := by
  unfold combinedRank specScore
  cases rankOf ftsM rid <;> cases rankOf vecM rid <;> ring

theorem rrfLe_eq_specLe {α : Type} (vecM ftsM : List (Nat × Rat)) :
    (rrfLe (α := α) vecM ftsM) = specLe vecM ftsM := by
  funext a b
  unfold rrfLe specLe
  rw [combinedRank_eq_specScore, combinedRank_eq_specScore]

theorem hybridRows_eq_spec {α : Type} (vecRows ftsRows : List (Nat × Rat))
    (tbl : List (SRow α)) (limit : Nat) :
    hybridRows vecRows ftsRows tbl limit = specHybridTop vecRows ftsRows tbl limit := by
  simp only [hybridRows, specHybridTop, rrfLe_eq_specLe]
  rw [List.take_take]
  congr 1
  omega

theorem specLe_trans {α : Type} (vecM ftsM : List (Nat × Rat)) :
    ∀ a b c : SRow α, specLe vecM ftsM a b = true → specLe vecM ftsM b c = true →
      specLe vecM ftsM a c = true := by
  intro a b c hab hbc
  simp only [specLe, decide_eq_true_eq] at hab hbc ⊢
  exact le_trans hbc hab

theorem specLe_total {α : Type} (vecM ftsM : List (Nat × Rat)) :
    ∀ a b : SRow α, (specLe vecM ftsM a b || specLe vecM ftsM b a) = true := by
  intro a b
  simp only [specLe, Bool.or_eq_true, decide_eq_true_eq]
  exact le_total _ _

theorem specHybridTop_sorted {α : Type} (vecRows ftsRows : List (Nat × Rat))
    (tbl : List (SRow α)) (limit : Nat) :
    List.Sorted (fun a b =>
        specScore (vecTop vecRows (3 * limit)) (ftsTop ftsRows (3 * limit)) b.rowid ≤
        specScore (vecTop vecRows (3 * limit)) (ftsTop ftsRows (3 * limit)) a.rowid)
      (specHybridTop vecRows ftsRows tbl limit) := by
  have hs := List.sorted_mergeSort
    (specLe_trans (α := α) (vecTop vecRows (3 * limit)) (ftsTop ftsRows (3 * limit)))
    (specLe_total (α := α) (vecTop vecRows (3 * limit)) (ftsTop ftsRows (3 * limit)))
    (tbl.filter (fun r => (rankOf (vecTop vecRows (3 * limit)) r.rowid).isSome ||
      (rankOf (ftsTop ftsRows (3 * limit)) r.rowid).isSome))
  have hp := List.Pairwise.sublist
    (List.take_sublist limit _) hs
  exact hp.imp (fun h => by simpa [specLe] using h)

theorem hybridSearch_eq_spec {α : Type} (sem : String → List (Nat × Rat))
    (vecRows : List (Nat × Rat)) (tbl : List (SRow α)) (q : String) (limit : Nat)
    (hq : q ≠ "") :
    hybridSearch sem (some vecRows) tbl q limit =
      .ok (specHybridTop vecRows (sem q) tbl limit) ∧
    hybridSearch sem none tbl q limit = .ok (ftsOnlyRows (sem q) tbl limit) := by
  unfold hybridSearch ftsMatchExec
  rw [if_neg hq]
  constructor
  · show Except.ok (hybridRows vecRows (sem q) tbl limit) = _
    rw [hybridRows_eq_spec]
  · rfl

theorem specHybridTop_length_le {α : Type} (vecRows ftsRows : List (Nat × Rat))
    (tbl : List (SRow α)) (limit : Nat) :
    (specHybridTop vecRows ftsRows tbl limit).length ≤ limit :=
  List.length_take_le _ _

theorem ftsOnlyRows_length_le {α : Type} (ftsRows : List (Nat × Rat))
    (tbl : List (SRow α)) (limit : Nat) :
    (ftsOnlyRows ftsRows tbl limit).length ≤ limit :=
  List.length_take_le _ _

theorem hybridRows_nil {α : Type} (tbl : List (SRow α)) (limit : Nat) :
    hybridRows [] [] tbl limit = [] := by
  simp [hybridRows, vecTop, ftsTop, rankOf]

theorem ftsOnlyRows_nil {α : Type} (tbl : List (SRow α)) (limit : Nat) :
    ftsOnlyRows [] tbl limit = [] := by
  simp [ftsOnlyRows]

theorem hybridSearch_no_match {α : Type} (sem : String → List (Nat × Rat))
    (tbl : List (SRow α)) (q : String) (limit : Nat) (hq : q ≠ "")
    (hfts : sem q = []) :
    hybridSearch sem (some []) tbl q limit = .ok [] ∧
    hybridSearch sem none tbl q limit = .ok [] := by
  unfold hybridSearch ftsMatchExec
  rw [if_neg hq]
  constructor
  · rw [hfts]
    show Except.ok (hybridRows [] [] tbl limit) = _
    rw [hybridRows_nil]
  · rw [hfts]
    show Except.ok (ftsOnlyRows [] tbl limit) = _
    rw [ftsOnlyRows_nil]

/-! ## C2 — reciprocal rank fusion -/

/-- C2 counterexample: the RRF description does not hold for *every*
query — at the empty query, even with a query embedding and matching
vector rows available, both search functions return an error (the empty
FTS5 `MATCH` pattern aborts the whole hybrid statement), not the fused
ranking; the FTS-only fallback errors likewise. -/
theorem hybrid_search_empty_query_errors :
    search_knowledge (fun _ => [(1, 0)]) (some [(1, 0)])
        [⟨1, ⟨"i", "c", "k", "v", none⟩⟩] "" 3 =
      .error "fts5 syntax error: empty query" ∧
    search_messages_with_embedding (fun _ => [(1, 0)]) (some [(1, 0)])
        [⟨1, ⟨"user", some "hello", none⟩⟩] "" 3 =
      .error "fts5 syntax error: empty query" ∧
    search_messages_with_embedding (fun _ => [(1, 0)]) none
        [⟨1, ⟨"user", some "hello", none⟩⟩] "" 3 =
      .error "fts5 syntax error: empty query" :=
  ⟨rfl, rfl, rfl⟩

/-- C2 amended: for every *nonempty* query (the empty query instead
errors out in the FTS5 `MATCH` parser), with a query embedding
available, `search_knowledge` and `search_messages_with_embedding`
return exactly the top `limit` candidates by descending RRF score —
vector list = top `3 * limit` rows by ascending distance, FTS list =
top `3 * limit` rows by the FTS rank column,
`score = 0.5/(60 + r_vec) + 0.5/(60 + r_fts)` with a missing presence
contributing 0 — at most `limit` of them, sorted by descending score;
with no embedding they return at most `limit` rows by the FTS intrinsic
rank only. -/
theorem hybrid_search_rrf_spec (sem : String → List (Nat × Rat))
    (vecRows : List (Nat × Rat)) (ktbl : List (SRow KnowledgeEntry))
    (mtbl : List (SRow MsgPayload)) (q : String) (limit : Nat) (hq : q ≠ "") :
    (search_knowledge sem (some vecRows) ktbl q limit =
        .ok (specHybridTop vecRows (sem q) ktbl limit) ∧
      search_messages_with_embedding sem (some vecRows) mtbl q limit =
        .ok (specHybridTop vecRows (sem q) mtbl limit)) ∧
    ((specHybridTop vecRows (sem q) ktbl limit).length ≤ limit ∧
      (specHybridTop vecRows (sem q) mtbl limit).length ≤ limit) ∧
    (List.Sorted (fun a b =>
        specScore (vecTop vecRows (3 * limit)) (ftsTop (sem q) (3 * limit)) b.rowid ≤
        specScore (vecTop vecRows (3 * limit)) (ftsTop (sem q) (3 * limit)) a.rowid)
      (specHybridTop vecRows (sem q) ktbl limit) ∧
      List.Sorted (fun a b =>
        specScore (vecTop vecRows (3 * limit)) (ftsTop (sem q) (3 * limit)) b.rowid ≤
        specScore (vecTop vecRows (3 * limit)) (ftsTop (sem q) (3 * limit)) a.rowid)
      (specHybridTop vecRows (sem q) mtbl limit)) ∧
    (search_knowledge sem none ktbl q limit =
        .ok (ftsOnlyRows (sem q) ktbl limit) ∧
      search_messages_with_embedding sem none mtbl q limit =
        .ok (ftsOnlyRows (sem q) mtbl limit)) ∧
    ((ftsOnlyRows (sem q) ktbl limit).length ≤ limit ∧
      (ftsOnlyRows (sem q) mtbl limit).length ≤ limit) :=
  ⟨⟨(hybridSearch_eq_spec sem vecRows ktbl q limit hq).1,
    (hybridSearch_eq_spec sem vecRows mtbl q limit hq).1⟩,
   ⟨specHybridTop_length_le _ _ _ _, specHybridTop_length_le _ _ _ _⟩,
   ⟨specHybridTop_sorted _ _ _ _, specHybridTop_sorted _ _ _ _⟩,
   ⟨(hybridSearch_eq_spec sem vecRows ktbl q limit hq).2,
    (hybridSearch_eq_spec sem vecRows mtbl q limit hq).2⟩,
   ⟨ftsOnlyRows_length_le _ _ _, ftsOnlyRows_length_le _ _ _⟩⟩

/-- C2 witness: a concrete hybrid search over one knowledge row that only
the FTS index matches. -/
theorem hybrid_search_rrf_spec_witness :
    search_knowledge (fun _ => [(1, 0)]) (some []) [⟨1, ⟨"i", "c", "k", "v", none⟩⟩]
        "x" 2 =
      .ok (specHybridTop [] [(1, 0)] [⟨1, ⟨"i", "c", "k", "v", none⟩⟩] 2) :=
  (hybrid_search_rrf_spec (fun _ => [(1, 0)]) [] [⟨1, ⟨"i", "c", "k", "v", none⟩⟩]
      [] "x" 2 (by decide)).1.1

/-! ## C9 — empty query and no-match behaviour -/

/-- C9 counterexample: the empty query makes the FTS5 `MATCH` pattern a
syntax error, so both search functions return an error rather than an
empty result list. -/
theorem empty_query_search_errors :
    search_knowledge (fun _ => []) (some []) [] "" 5 =
      .error "fts5 syntax error: empty query" ∧
    search_messages_with_embedding (fun _ => []) none [] "" 5 =
      .error "fts5 syntax error: empty query" :=
  ⟨rfl, rfl⟩

/-- C9 amended: a nonempty query that matches neither the FTS index nor
the vector index makes `search_knowledge` and
`search_messages_with_embedding` return successfully with an empty list,
in both the hybrid and the FTS-only mode; the empty query instead errors
out in the FTS5 `MATCH` parser (the `search_memory` caller swallows that
error, showing no results). -/
theorem search_no_match_empty (sem : String → List (Nat × Rat))
    (ktbl : List (SRow KnowledgeEntry)) (mtbl : List (SRow MsgPayload))
    (q : String) (limit : Nat) (hq : q ≠ "") (hfts : sem q = []) :
    (search_knowledge sem (some []) ktbl q limit = .ok [] ∧
      search_knowledge sem none ktbl q limit = .ok []) ∧
    (search_messages_with_embedding sem (some []) mtbl q limit = .ok [] ∧
      search_messages_with_embedding sem none mtbl q limit = .ok []) :=
  ⟨hybridSearch_no_match sem ktbl q limit hq hfts,
   hybridSearch_no_match sem mtbl q limit hq hfts⟩

/-- C9 witness: a concrete no-match query over a nonempty table. -/
theorem search_no_match_empty_witness :
    search_knowledge (fun _ => []) (some []) [⟨1, ⟨"i", "c", "k", "v", none⟩⟩]
        "zzz" 5 = .ok [] :=
  (search_no_match_empty (fun _ => []) [⟨1, ⟨"i", "c", "k", "v", none⟩⟩] []
      "zzz" 5 (by decide) rfl).1.1

/-! ## C1 — sandbox path confinement -/

/-- C1: whatever the filesystem does (existence, symlink resolution via
`canonicalize`), every path accepted by `validate_sandbox_path` starts
with the canonical sandbox root, and whenever the computed canonical
candidate does not start with the canonical root — for `..` inputs,
symlinked inputs and absolute inputs alike — the call is rejected with
the access-denied error. -/
theorem sandbox_path_confinement (fs : SandboxFs) (sandboxDir requested : RPath) :
    (∀ out, validate_sandbox_path fs sandboxDir requested = .ok out →
      ∃ root, fs.canonicalize sandboxDir = some root ∧
        out.startsWith root = true) ∧
    (∀ root cp, fs.canonicalize sandboxDir = some root →
      sandboxCheckPath fs sandboxDir requested = .ok cp →
      cp.startsWith root = false →
      validate_sandbox_path fs sandboxDir requested =
        .error "Access denied: path is outside the sandbox directory") := by
  constructor
  · intro out hok
    unfold validate_sandbox_path at hok
    cases hc : fs.canonicalize sandboxDir with
    | none =>
      rw [hc] at hok
      exact absurd hok (by simp)
    | some root =>
      rw [hc] at hok
      refine ⟨root, rfl, ?_⟩
      cases hcp : sandboxCheckPath fs sandboxDir requested with
      | error e =>
        rw [hcp] at hok
        have hok' : (Except.error e : Except String RPath) = Except.ok out := hok
        exact absurd hok' (by simp)
      | ok cp =>
        rw [hcp] at hok
        have hok' : (if cp.startsWith root = true then Except.ok cp
            else (Except.error "Access denied: path is outside the sandbox directory" :
              Except String RPath)) = Except.ok out := hok
        by_cases hsw : cp.startsWith root = true
        · rw [if_pos hsw] at hok'
          simp only [Except.ok.injEq] at hok'
          rw [← hok']
          exact hsw
        · rw [if_neg hsw] at hok'
          exact absurd hok' (by simp)
  · intro root cp hc hcp hsw
    unfold validate_sandbox_path
    rw [hc, hcp]
    show (if cp.startsWith root = true then Except.ok cp
        else (Except.error "Access denied: path is outside the sandbox directory" :
          Except String RPath)) =
      Except.error "Access denied: path is outside the sandbox directory"
    rw [if_neg (by simp [hsw])]

/-- C1 witness: a two-entry filesystem where the sandbox canonicalizes to
itself and the requested relative file resolves inside it. -/
theorem sandbox_path_confinement_witness :
    ∃ root,
      SandboxFs.canonicalize
          ⟨fun p => p == ⟨true, ["sb", "f"]⟩,
           fun p =>
             if p == ⟨true, ["sb"]⟩ then some ⟨true, ["sb"]⟩
             else if p == ⟨true, ["sb", "f"]⟩ then some ⟨true, ["sb", "f"]⟩
             else none⟩
          ⟨true, ["sb"]⟩ = some root ∧
      RPath.startsWith ⟨true, ["sb", "f"]⟩ root = true :=
  (sandbox_path_confinement
      ⟨fun p => p == ⟨true, ["sb", "f"]⟩,
       fun p =>
         if p == ⟨true, ["sb"]⟩ then some ⟨true, ["sb"]⟩
         else if p == ⟨true, ["sb", "f"]⟩ then some ⟨true, ["sb", "f"]⟩
         else none⟩
      ⟨true, ["sb"]⟩ ⟨false, ["f"]⟩).1 ⟨true, ["sb", "f"]⟩ rfl

end RustBot
